import Mathlib

/-!
# Verification of the polymarket harvesting-and-ranking pipeline

Shallow embedding of the concurrent harvesting-and-ranking core of the
`polymarket_api` repository (files `gamma_api/top_election_vol.py` and
`gamma_api/query_elections.py`), together with theorems settling the
frozen claims about the natural-language specification.

JSON/Python values are modelled by the inductive type `Value`; Python
dictionaries (records) by association lists `Record`.  Python machine
floats are modelled by `Rat`: the ranking keys are only produced, compared
and defaulted, never subjected to rounding-sensitive arithmetic, so exact
rationals are a faithful model of the code's use of `float`.
-/

/-- A JSON/Python value: `None`, booleans, numbers, strings, lists and
dictionaries.  Mirrors what `response.json()` can produce. -/
inductive Value where
  | null : Value
  | bool (b : Bool) : Value
  | num (q : Rat) : Value
  | str (s : String) : Value
  | list (vs : List Value) : Value
  | dict (fs : List (String × Value)) : Value

mutual

/-- Structural equality of values. -/
def valueBEq : Value → Value → Bool
  | .null, .null => true
  | .bool a, .bool b => a == b
  | .num a, .num b => a == b
  | .str a, .str b => a.data == b.data
  | .list as, .list bs => valueListBEq as bs
  | .dict as, .dict bs => valueDictBEq as bs
  | _, _ => false

/-- Structural equality of value lists. -/
def valueListBEq : List Value → List Value → Bool
  | [], [] => true
  | a :: as, b :: bs => valueBEq a b && valueListBEq as bs
  | _, _ => false

/-- Structural equality of dictionary field lists. -/
def valueDictBEq : List (String × Value) → List (String × Value) → Bool
  | [], [] => true
  | (k, a) :: as, (l, b) :: bs => k == l && valueBEq a b && valueDictBEq as bs
  | _, _ => false

end

instance : BEq Value := ⟨valueBEq⟩

/-- A Python dictionary record, as an association list (first binding wins,
matching dictionary key uniqueness). -/
abbrev Record := List (String × Value)

/-- `m.get(k)` on a Python dict: `some v` when the key is present,
`none` when absent. -/
def recGet (m : Record) (k : String) : Option Value :=
  match m with
  | [] => none
  | (k', v) :: rest => if k' = k then some v else recGet rest k

/-- Python truthiness (`bool(v)`): `None`, `False`, `0`, `""`, `[]`, `{}`
are falsy, everything else truthy. -/
def pyTruthy : Value → Bool
  | .null => false
  | .bool b => b
  | .num q => q != 0
  | .str s => !s.data.isEmpty
  | .list vs => !vs.isEmpty
  | .dict fs => !fs.isEmpty

/-- Python `==` on values.  Scalars follow Python semantics (`True == 1`,
`1 == 1.0`); lists and dictionaries are compared structurally, which agrees
with Python on the scalar identifier values the pipeline compares. -/
def pyEq (a b : Value) : Bool :=
  match a, b with
  | .bool x, .num q => (if x then (1 : Rat) else 0) == q
  | .num q, .bool x => q == (if x then (1 : Rat) else 0)
  | a, b => a == b

/-- `o == True` for an optional Python value (`market.get("closed") == True`). -/
def pyIsTrue (o : Option Value) : Bool :=
  match o with
  | some v => pyEq v (.bool true)
  | none => false

/-- `needle` occurs as a contiguous run at the start of `hay`. -/
def startsWithChars : List Char → List Char → Bool
  | _, [] => true
  | [], _ :: _ => false
  | c :: cs, d :: ds => c == d && startsWithChars cs ds

/-- `needle` occurs contiguously somewhere in `hay`
(the Python `needle in hay` substring test). -/
def containsChars : List Char → List Char → Bool
  | [], needle => needle.isEmpty
  | c :: cs, needle => startsWithChars (c :: cs) needle || containsChars cs needle

/-- Python `needle in hay` on strings. -/
def strContains (hay needle : String) : Bool :=
  containsChars hay.toList needle.toList

/-! ## Numeric coercion (`float(v)` in Python)

`top_election_vol.get_volume` and the `volumeNum` coercion in
`query_elections.get_election_markets` call `float(...)` inside
`try/except (ValueError, TypeError)`.  We model `float` on strings by a
decimal parser (optional sign, digits, optional fractional part); the
claims only depend on whether coercion succeeds, not on exotic float
syntax, and the parser agrees with Python on all inputs used in
counterexamples and witnesses. -/

/-- Numeric value of a digit string (most significant first). -/
def digitsToNat (cs : List Char) : Nat :=
  cs.foldl (fun n c => n * 10 + (c.toNat - '0'.toNat)) 0

/-- Split a character list at the first `'.'`, if any. -/
def splitAtDot : List Char → (List Char × Option (List Char))
  | [] => ([], none)
  | c :: rest =>
    if c = '.' then ([], some rest)
    else
      let (a, b) := splitAtDot rest
      (c :: a, b)

/-- Model of Python `float(s)` on a string: `some` the parsed rational, or
`none` when `float` raises `ValueError`. -/
def parseFloat? (s : String) : Option Rat :=
  let p : Bool × List Char :=
    match s.data with
    | '+' :: r => (false, r)
    | '-' :: r => (true, r)
    | r => (false, r)
  let (ip, fp?) := splitAtDot p.2
  let core? : Option Rat :=
    match fp? with
    | none =>
      if ip ≠ [] ∧ ip.all Char.isDigit then some ((digitsToNat ip : Nat) : Rat) else none
    | some fp =>
      if (ip ≠ [] ∨ fp ≠ []) ∧ ip.all Char.isDigit ∧ fp.all Char.isDigit then
        some (mkRat (digitsToNat (ip ++ fp)) (10 ^ fp.length))
      else none
  core?.map (fun q => if p.1 then -q else q)

/-- Model of Python `float(v)` on an arbitrary value: `none` when it raises
(`TypeError` on `None`/lists/dicts, `ValueError` on non-numeric strings). -/
def pyFloat? : Value → Option Rat
  | .num q => some q
  | .bool b => some (if b then 1 else 0)
  | .str s => parseFloat? s
  | _ => none

/-- `s.lower()` (characterwise ASCII lowering, as `str.lower` does on the
ASCII texts the validators consume). -/
def strLower (s : String) : String := ⟨s.data.map Char.toLower⟩

/-- `not s.strip()`: the string contains only whitespace. -/
def strBlank (s : String) : Bool := s.data.all Char.isWhitespace

/-! ## `top_election_vol.py` -/

/-- `WIN_KEYWORDS` from `top_election_vol.py`. -/
def WIN_KEYWORDS : List String := ["win", "wins"]

/-- `ELECTION_KEYWORDS` from `top_election_vol.py`. -/
def ELECTION_KEYWORDS : List String := ["election", "elected"]

/-- `market.get(k, "").lower()`: missing keys default to `""`; a present
non-string value makes `.lower()` raise `AttributeError` (`none`). -/
def pyLowerGetD (o : Option Value) : Option String :=
  match o with
  | none => some ""
  | some (.str s) => some (strLower s)
  | some _ => none

/-- The description text in `is_valid_market`:
`market.get("description", "").lower() if market.get("description") else ""`. -/
def descText (m : Record) : Option String :=
  match recGet m "description" with
  | none => some ""
  | some v =>
    if pyTruthy v then
      match v with
      | .str s => some (strLower s)
      | _ => none
    else some ""

/-- `text_content` built by `is_valid_market`: lowercased question, a space,
then the description text.  `none` models an `AttributeError`. -/
def text_content (m : Record) : Option String := do
  let q ← pyLowerGetD (recGet m "question")
  let d ← descText m
  return q ++ " " ++ d

/-- `is_valid_market` from `top_election_vol.py`.  `some b` is a normal
boolean return, `none` an escaped exception.  `EXCLUDE_PATTERNS` is the
empty list in the source, so the exclusion loop is a no-op. -/
def is_valid_market (m : Record) : Option Bool :=
  if !pyTruthy ((recGet m "closed").getD (.bool false)) then some false
  else
    match recGet m "groupItemTitle" with
    | some (.str s) =>
      if s.data.isEmpty then some false
      else if strBlank s then some false
      else if s.data.any Char.isDigit then some false
      else do
        let t ← text_content m
        return (WIN_KEYWORDS.any (fun k => strContains t k) &&
                ELECTION_KEYWORDS.any (fun k => strContains t k))
    | _ => some false

/-- `get_volume` from `get_top_markets_by_volume`: the ranking key.
`vol = market.get("volumeNum")`; when that is `None` (missing or null),
`vol = market.get("volume", 0)`; then `float(vol) if vol is not None else 0`
under `try/except` returning `0` on failure. -/
def get_volume (m : Record) : Rat :=
  let vol : Option Value :=
    match recGet m "volumeNum" with
    | some .null | none =>
      match recGet m "volume" with
      | none => some (.num 0)
      | some w => some w
    | some v => some v
  match vol with
  | some .null => 0
  | none => 0
  | some v => (pyFloat? v).getD 0

/-- Response-shape handling in `fetch_markets_batch`
(`top_election_vol.py` lines 72-77): a dict is answered with its
`markets` value (defaulting to `[]`), a bare list with itself, and
anything else with `[]`. -/
def topExtract : Value → Value
  | .dict fs =>
    match recGet fs "markets" with
    | some v => v
    | none => .list []
  | .list vs => .list vs
  | _ => .list []

/-! ## The retry loop of `fetch_markets_batch`

The transport is a function `tr : Nat → Option Value` giving, for each
attempt index, either the parsed JSON body of a successful request
(`some`) or a transport failure — timeout, connection error or non-2xx
status, all of which the `except` arm catches (`none`).

`fetchFor` mirrors `for attempt in range(max_retries)` and additionally
records the trace: the list of backoff delays slept and the number of
attempts issued.  The third component is the function's return value:
`none` models Python falling off the loop and returning `None` (only
possible when `max_retries = 0`); after exhausting retries the source
returns the empty list. -/
def fetchFor (tr : Nat → Option Value) (maxRetries baseDelay : Nat) :
    List Nat → List Nat × Nat × Option Value
  | [] => ([], 0, none)
  | i :: rest =>
    match tr i with
    | some d => ([], 1, some (topExtract d))
    | none =>
      if i < maxRetries - 1 then
        let r := fetchFor tr maxRetries baseDelay rest
        (baseDelay * 2 ^ i :: r.1, r.2.1 + 1, r.2.2)
      else ([], 1, some (.list []))

/-- `fetch_markets_batch` from `top_election_vol.py`, instrumented:
`(delays slept, attempts issued, returned value)`.  The source hardcodes
`max_retries = 3` and `retry_delay = 5`; they are parameters here so the
claims quantify over the retry policy. -/
def fetch_markets_batch (tr : Nat → Option Value) (maxRetries baseDelay : Nat) :
    List Nat × Nat × Option Value :=
  fetchFor tr maxRetries baseDelay (List.range maxRetries)

/-- Length of the initial run of failing attempts of a transport, capped
at `cap`, starting at attempt index `i`. -/
def failStreakAux (tr : Nat → Option Value) : Nat → Nat → Nat
  | 0, _ => 0
  | n + 1, i =>
    match tr i with
    | some _ => 0
    | none => failStreakAux tr n (i + 1) + 1

/-- Number of initial consecutive failing attempts, capped at `cap`. -/
def failStreak (tr : Nat → Option Value) (cap : Nat) : Nat :=
  failStreakAux tr cap 0

/-! ## The wave scheduler of `fetch_all_markets`

The synthetic backing store holds exactly `N` records, identified by
`0, …, N-1`; a page request at `offset` with page size `limit` returns the
records in `[offset, min (offset+limit) N)`, exactly how a paginated
listing endpoint over `N` records behaves. -/

/-- One page fetch against the synthetic store of `N` records. -/
def storeFetch (N offset limit : Nat) : List Nat :=
  ((List.range N).drop offset).take limit

/-- One wave: `max_workers` fetches at offsets
`c, c+P, …, c+(W-1)*P` (source lines 129-131). -/
def wave (N P W c : Nat) : List (List Nat) :=
  (List.range W).map (fun i => storeFetch N (c + i * P) P)

/-- The `all_empty` flag of a wave: every fetch returned zero records. -/
def waveAllEmpty (ws : List (List Nat)) : Bool := ws.all (fun l => l.isEmpty)

/-- The wave loop of `fetch_all_markets` against the synthetic store: the
`while has_more` loop dispatches a wave at the cursor, stops after the
first fully-empty wave, and otherwise advances the cursor by `P * W`.
`fuel` bounds the number of iterations the model may take; `none` means
the loop did not terminate within `fuel` waves.  The returned list is the
sequence of waves issued, the last one being the terminating wave. -/
def fetchAllWaves (N P W : Nat) : Nat → Nat → Option (List (List (List Nat)))
  | 0, _ => none
  | fuel + 1, c =>
    let w := wave N P W c
    if waveAllEmpty w then some [w]
    else
      match fetchAllWaves N P W fuel (c + P * W) with
      | none => none
      | some ws => some (w :: ws)

/-! ## Stable descending sort (`list.sort(key=…, reverse=True)`)

Python's `list.sort` and `sorted` are stable: with `reverse=True` the
records end up in descending key order and records with equal keys keep
their original relative order.  A stable descending sort is the unique
permutation that is sorted for the total order «strictly larger key, or
equal key and earlier original position»; we realize it as `mergeSort`
over the index-decorated list with exactly that order. -/

/-- The total order used by the stable descending sort: compare keys
descending, break ties by original position.  It is antisymmetric, so a
sorted permutation of a decorated list is unique, and sorting by it is
*the* stable descending sort. -/
def descIdxLE (key : α → Rat) (a b : Nat × α) : Bool :=
  decide (key b.2 < key a.2) || (decide (key a.2 = key b.2) && decide (a.1 ≤ b.1))

/-- `descIdxLE` as a decidable relation. -/
def descIdxRel (key : α → Rat) (a b : Nat × α) : Prop := descIdxLE key a b = true

instance (key : α → Rat) : DecidableRel (descIdxRel key) :=
  fun a b => inferInstanceAs (Decidable (descIdxLE key a b = true))

/-- Index-decorated stable descending sort (realized by insertion sort,
which is stable; by uniqueness of the sorted permutation under the
antisymmetric total order `descIdxRel`, this is the only possible output
of Python's stable `list.sort(key=…, reverse=True)`). -/
def stableSortDescIdx (key : α → Rat) (l : List α) : List (Nat × α) :=
  l.enum.insertionSort (descIdxRel key)

/-- `l.sort(key=key, reverse=True)`. -/
def stableSortDesc (key : α → Rat) (l : List α) : List α :=
  (stableSortDescIdx key l).map Prod.snd

/-- The parallel filtering step of `get_top_markets_by_volume`:
`executor.map(is_valid_market, …)` preserves input order, so it is an
order-preserving filter; an exception raised by any validator call
propagates (`none`). -/
def topFilterValid : List Record → Option (List Record)
  | [] => some []
  | m :: rest => do
    let b ← is_valid_market m
    let tail ← topFilterValid rest
    return if b then m :: tail else tail

/-- `get_top_markets_by_volume`, given the list of records the exhaustive
fetch produced: filter by `is_valid_market`, stable-sort descending by
`get_volume`, truncate to `top_n`. -/
def get_top_markets_by_volume (ms : List Record) (top_n : Nat) : Option (List Record) := do
  let fl ← topFilterValid ms
  return (stableSortDesc get_volume fl).take top_n

/-! ## `query_elections.py` -/

/-- `ELECTION_KEYWORDS` from `query_elections.py`. -/
def QE_ELECTION_KEYWORDS : List String :=
  ["president", "election", "presidential", "vote", "ballot",
   "congress", "senate", "governor", "candidate", "primary", "nominee",
   "mayor", "democrat", "republican", "constituency", "parliament",
   "chancellor", "minister", "party", "campaign", "poll"]

/-- The per-event body of the `events` loop in `is_election_related`
(lines 64-71).  Every event must be a dict, otherwise `.get` raises
(`none`). -/
def qeCheckEvents : List Value → Option Bool
  | [] => some false
  | .dict e :: rest => do
    let t ← pyLowerGetD (recGet e "title")
    let d ← pyLowerGetD (recGet e "description")
    let ty ← pyLowerGetD (recGet e "electionType")
    if !ty.data.isEmpty || strContains t "election" ||
        QE_ELECTION_KEYWORDS.any (fun k => strContains t (strLower k)) ||
        QE_ELECTION_KEYWORDS.any (fun k => strContains d (strLower k)) then
      return true
    else
      qeCheckEvents rest
  | _ :: _ => none

/-- `is_election_related` from `query_elections.py`.  `some b` is a
normal return, `none` an escaped exception (`.lower()` on a present
non-string field). -/
def is_election_related (m : Record) : Option Bool := do
  let q ← pyLowerGetD (recGet m "question")
  let d ← pyLowerGetD (recGet m "description")
  let c ← pyLowerGetD (recGet m "category")
  if QE_ELECTION_KEYWORDS.any (fun k =>
      strContains q (strLower k) || strContains d (strLower k) ||
      strContains c (strLower k)) then
    return true
  else if strContains c "election" || strContains c "political" ||
      strContains c "politics" then
    return true
  else
    match recGet m "events" with
    | some (.list evs) =>
      if evs.isEmpty then return false else qeCheckEvents evs
    | _ => return false

/-- The `volumeNum` coercion of `get_election_markets` (lines 207-219):
present `volumeNum` is coerced (`0` on failure, including `None`);
otherwise a present `volume` is coerced; otherwise `0`. -/
def qeVolumeNum (m : Record) : Rat :=
  match recGet m "volumeNum" with
  | some v => (pyFloat? v).getD 0
  | none =>
    match recGet m "volume" with
    | some v => (pyFloat? v).getD 0
    | none => 0

/-- Python `market[k] = v`: replace the binding in place, or append. -/
def recSet (m : Record) (k : String) (v : Value) : Record :=
  match m with
  | [] => [(k, v)]
  | (k', v') :: rest => if k' = k then (k', v) :: rest else (k', v') :: recSet rest k v

/-- Membership of a value in the `seen_ids` set (Python `in`, by `==`). -/
def seenHas (seen : List Value) (v : Value) : Bool :=
  seen.any (fun w => pyEq w v)

/-- The collection step of `fetch_markets_batched` (lines 133-137): a
record is admitted when its `id` is truthy, unseen, and its `closed`
field `== True`; the id of an admitted record joins the seen set.
Applied to the concatenated stream of fetched records. -/
def collectMarkets : List Value → List Record → List Record
  | _, [] => []
  | seen, m :: rest =>
    match recGet m "id" with
    | some v =>
      if pyTruthy v && !seenHas seen v && pyIsTrue (recGet m "closed") then
        m :: collectMarkets (v :: seen) rest
      else
        collectMarkets seen rest
    | none => collectMarkets seen rest

/-- One insertion into the dict comprehension of line 168: a Python dict
keeps the first key position but the last value (last-wins). -/
def dictInsert (assoc : List (Value × Record)) (k : Value) (m : Record) :
    List (Value × Record) :=
  match assoc with
  | [] => [(k, m)]
  | (k', m') :: rest =>
    if pyEq k' k then (k', m) :: rest else (k', m') :: dictInsert rest k m

/-- `{market.get("id"): market for market in ms if market.get("id")}`. -/
def uniqueBuild (acc : List (Value × Record)) : List Record → List (Value × Record)
  | [] => acc
  | m :: rest =>
    match recGet m "id" with
    | some v =>
      if pyTruthy v then uniqueBuild (dictInsert acc v m) rest
      else uniqueBuild acc rest
    | none => uniqueBuild acc rest

/-- Lines 167-169: the dict-comprehension deduplication pass, yielding
`.values()` in key insertion order. -/
def uniqueMarkets (ms : List Record) : List Record :=
  (uniqueBuild [] ms).map Prod.snd

/-- The merged output of the deduplication machinery of
`fetch_markets_batched` on a stream of fetched records: the seen-set
collection pass followed by the dict-comprehension pass. -/
def qeMerge (stream : List Record) : List Record :=
  uniqueMarkets (collectMarkets [] stream)

/-! ## The fetch loop of `fetch_markets_batched`

The `try` block catches only `requests.exceptions.RequestException`; any
other exception escapes the function.  Python-level errors that the model
tracks:

* `PyErr.unboundLocal` — the `len(markets)` check at line 161 runs before
  the local `markets` was ever assigned (possible because both the
  "could not find markets data" branch and the retries-exhausted branch
  `break` without assigning it);
* `PyErr.typeError` — an uncaught `TypeError`/`AttributeError` inside the
  `try` block (`"markets" in data` on a non-iterable body, indexing a
  list body by string, or `.get` on a non-dict market). -/
inductive PyErr where
  | unboundLocal
  | typeError
deriving DecidableEq

/-- Shape handling of lines 119-123: only a dict body whose `markets`
field is a list is accepted; `missing` is the "could not find markets
data" branch, `raise` an uncaught `TypeError`. -/
inductive QEShape where
  | records (ms : List Value)
  | missing
  | raise

/-- `if "markets" in data and isinstance(data["markets"], list)` with
Python semantics for each body type. -/
def qeExtract : Value → QEShape
  | .dict fs =>
    match recGet fs "markets" with
    | some (.list ms) => .records ms
    | _ => .missing
  | .list vs => if vs.any (fun v => pyEq v (.str "markets")) then .raise else .missing
  | .str s => if strContains s "markets" then .raise else .missing
  | _ => .raise

/-- The local state of `fetch_markets_batched` while processing one term.
`markets = none` models the local variable `markets` not yet being
assigned. -/
structure QESt where
  markets : Option (List Value)
  termMarkets : List Record
  seen : List Value
  offset : Nat
  delays : List Nat

/-- The collection loop of lines 133-137, over the raw values of a fetched
page (a non-dict entry makes `market.get` raise). -/
def qeCollectLoop : List Record × List Value → List Value → Except PyErr (List Record × List Value)
  | acc, [] => .ok acc
  | (tm, seen), .dict m :: rest =>
    (match recGet m "id" with
     | some v =>
       if pyTruthy v && !seenHas seen v && pyIsTrue (recGet m "closed") then
         qeCollectLoop (tm ++ [m], v :: seen) rest
       else qeCollectLoop (tm, seen) rest
     | none => qeCollectLoop (tm, seen) rest)
  | _, _ :: _ => .error .typeError

/-- The retry loop of lines 109-158.  `tr offset retry` is the response
body of the request issued at `offset` on attempt `retry`, or `none` for a
`RequestException`.  Backoff sleeps of `2 ** retry` seconds are appended
to `delays`. -/
def qeRetryFor (tr : Nat → Nat → Option Value) (maxRetries pageSize : Nat) (st : QESt) :
    List Nat → Except PyErr QESt
  | [] => .ok st
  | retry :: rest =>
    match tr st.offset retry with
    | none =>
      if retry < maxRetries - 1 then
        qeRetryFor tr maxRetries pageSize { st with delays := st.delays ++ [2 ^ retry] } rest
      else .ok st
    | some data =>
      match qeExtract data with
      | .raise => .error .typeError
      | .missing => .ok st
      | .records ms =>
        if ms.isEmpty then .ok { st with markets := some ms }
        else
          match qeCollectLoop (st.termMarkets, st.seen) ms with
          | .error e => .error e
          | .ok (tm, sn) =>
            .ok { st with markets := some ms, termMarkets := tm, seen := sn,
                          offset := st.offset + pageSize }

/-- The `while len(term_markets) < limit_per_term` loop for one term.
`fuel` bounds the number of page iterations the model runs (the source
loop has no such bound and can run forever, e.g. when every page repeats
already-seen records); running out of fuel stops with the current state. -/
def qeWhile (tr : Nat → Nat → Option Value) (maxRetries pageSize limitPerTerm : Nat) :
    Nat → QESt → Except PyErr QESt
  | 0, st => .ok st
  | fuel + 1, st =>
    if st.termMarkets.length < limitPerTerm then
      match qeRetryFor tr maxRetries pageSize st (List.range maxRetries) with
      | .error e => .error e
      | .ok st' =>
        match st'.markets with
        | none => .error .unboundLocal
        | some ms =>
          if ms.length = 0 || limitPerTerm ≤ st'.termMarkets.length then .ok st'
          else qeWhile tr maxRetries pageSize limitPerTerm fuel st'
    else .ok st

/-- The `for term in search_terms` loop.  `seen_ids` is shared across
terms; so is the stale local `markets`. -/
def qeTerms (tr : String → Nat → Nat → Option Value)
    (maxRetries pageSize limitPerTerm fuel : Nat) :
    List String → List Record → List Value → Option (List Value) →
    Except PyErr (List Record)
  | [], acc, _, _ => .ok acc
  | term :: rest, acc, seen, mk =>
    let st0 : QESt :=
      { markets := mk, termMarkets := [], seen := seen, offset := 0, delays := [] }
    match qeWhile (tr term) maxRetries pageSize limitPerTerm fuel st0 with
    | .error e => .error e
    | .ok st =>
      qeTerms tr maxRetries pageSize limitPerTerm fuel rest
        (acc ++ st.termMarkets) st.seen st.markets

/-- `fetch_markets_batched`: fetch every term, then deduplicate through
the dict comprehension.  (The source defaults are `limit_per_term = 100`,
`max_retries = 3`, `page_size = 20`.) -/
def fetch_markets_batched (tr : String → Nat → Nat → Option Value) (terms : List String)
    (limitPerTerm maxRetries pageSize fuel : Nat) : Except PyErr (List Record) :=
  match qeTerms tr maxRetries pageSize limitPerTerm fuel terms [] [] none with
  | .error e => .error e
  | .ok all => .ok (uniqueMarkets all)

/-- The filter-and-coerce loop of `get_election_markets` (lines 205-221):
keep records accepted by `is_election_related`, overwriting their
`volumeNum` with the coerced number.  `none` models an exception escaping
from `is_election_related`. -/
def qeFilterCoerce : List Record → Option (List Record)
  | [] => some []
  | m :: rest => do
    let b ← is_election_related m
    let tail ← qeFilterCoerce rest
    return if b then recSet m "volumeNum" (.num (qeVolumeNum m)) :: tail else tail

/-- The sort key `x.get("volumeNum", 0)` of line 226.  After the coercion
pass every record holds a numeric `volumeNum`; the `0` default mirrors
`.get`'s default. -/
def qeSortKey (m : Record) : Rat :=
  match recGet m "volumeNum" with
  | some (.num q) => q
  | _ => 0

/-- `get_election_markets`, given the deduplicated records returned by
`fetch_markets_batched`: filter, coerce, stable-sort descending by
`volumeNum`, truncate to `limit`. -/
def get_election_markets (ms : List Record) (limit : Nat) : Option (List Record) := do
  let em ← qeFilterCoerce ms
  return (stableSortDesc qeSortKey em).take limit

/-! ## Order instances, refinement definitions and concrete fixtures -/

instance (key : α → Rat) : IsTotal (Nat × α) (descIdxRel key) where
  total a b := by
    simp only [descIdxRel, descIdxLE, Bool.or_eq_true, Bool.and_eq_true, decide_eq_true_eq]
    rcases lt_trichotomy (key a.2) (key b.2) with h | h | h
    · exact Or.inr (Or.inl h)
    · rcases Nat.le_total a.1 b.1 with hi | hi
      · exact Or.inl (Or.inr ⟨h, hi⟩)
      · exact Or.inr (Or.inr ⟨h.symm, hi⟩)
    · exact Or.inl (Or.inl h)

instance (key : α → Rat) : IsTrans (Nat × α) (descIdxRel key) where
  trans a b c hab hbc := by
    simp only [descIdxRel, descIdxLE, Bool.or_eq_true, Bool.and_eq_true,
      decide_eq_true_eq] at hab hbc ⊢
    rcases hab with h1 | ⟨he1, hi1⟩ <;> rcases hbc with h2 | ⟨he2, hi2⟩
    · exact Or.inl (h2.trans h1)
    · exact Or.inl (by rw [← he2]; exact h1)
    · exact Or.inl (by rw [he1]; exact h2)
    · exact Or.inr ⟨he1.trans he2, hi1.trans hi2⟩


/-- Strict pairwise order of the stable descending sort: strictly larger
key first, and on key ties the earlier original position first.  The
second disjunct *is* stability. -/
def descStrict (key : α → Rat) (a b : Nat × α) : Prop :=
  key b.2 < key a.2 ∨ (key a.2 = key b.2 ∧ a.1 < b.1)


/-- Number of waves the scheduler still issues from cursor `c`:
`ceil((N-c)/m) + 1` (the trailing `+1` is the terminating empty wave). -/
def wavesLeft (N m c : Nat) : Nat := (N - c + m - 1) / m + 1


/-- A concrete record passing every check of `is_valid_market`. -/
def mValid : Record :=
  [("closed", .bool true), ("groupItemTitle", .str "Alpha"),
   ("question", .str "Will X win the election?")]


/-- A record with no `closed` field at all (and a `question` whose
`.lower()` would raise, witnessing that rejection happens before the
textual checks run). -/
def mNoClosed : Record :=
  [("groupItemTitle", .str "Alpha"), ("question", .num 7)]


/-- A transport whose every request fails (timeout / connection error /
non-2xx on all attempts, at every offset and term). -/
def trAllFail : String → Nat → Nat → Option Value := fun _ _ _ => none

/-- A transport answering every request with a bare JSON array holding
one well-formed record — a shape `top_election_vol` accepts but
`query_elections` does not. -/
def trBareArray : String → Nat → Nat → Option Value :=
  fun _ _ _ => some (.list [.dict [("id", .str "1"), ("closed", .bool true)]])


/-- A well-formed record value used as a bare-array payload. -/
def vRecord : Value := .dict [("id", .str "1"), ("closed", .bool true)]


/-- A valid record with ranking key 10. -/
def mRankA : Record :=
  [("closed", .bool true), ("groupItemTitle", .str "Alpha"),
   ("question", .str "will a win the election"), ("volumeNum", .num 10)]

/-- A valid record with ranking key 20, discovered after `mRankA`. -/
def mRankB : Record :=
  [("closed", .bool true), ("groupItemTitle", .str "Beta"),
   ("question", .str "will b win the election"), ("volumeNum", .num 20)]

/-- An invalid record (not closed). -/
def mRankC : Record := [("closed", .bool false)]

/-- An election-related record for the `query_elections` ranker. -/
def mQeA : Record := [("question", .str "election winner"), ("volumeNum", .num 3)]

/-- A record `is_election_related` rejects. -/
def mQeB : Record := [("question", .str "btc price")]


/-- A duplicate-id pair: same truthy id, first not closed, second closed. -/
def rDupOpen : Record := [("id", .str "1"), ("closed", .bool false)]

/-- See `rDupOpen`. -/
def rDupClosed : Record := [("id", .str "1"), ("closed", .bool true)]


/-- The initial per-term state of the `query_elections` fetch loop. -/
def st0 : QESt := ⟨none, [], [], 0, []⟩

/-- The state after the retry loop exhausts 3 failing attempts. -/
def stExhausted : QESt := ⟨none, [], [], 0, [1, 2]⟩


/-- The ranking-key chain exactly as the claim words it (spec refinement
definition, for refutation only): try `volumeNum`; when it is absent or
non-coercible fall back to `volume`; when that is also missing, null or
non-numeric, resolve to `0.0`. -/
def claimRankKey (m : Record) : Rat :=
  match (recGet m "volumeNum").bind pyFloat? with
  | some q => q
  | none =>
    match (recGet m "volume").bind pyFloat? with
    | some q => q
    | none => 0

/-- The record refuting C6's fallback clause: `volumeNum` present but
non-coercible, `volume` present and numeric. -/
def mVolAbc : Record := [("volumeNum", .str "abc"), ("volume", .num 5)]

/-! ## Helper lemmas -/

/-- Every record admitted by the collection pass has a truthy identifier
that was unseen on entry, and its `closed` field compares `== True`. -/
theorem mem_collectMarkets :
    ∀ (stream : List Record) (seen : List Value) (r : Record),
      r ∈ collectMarkets seen stream →
      ∃ v, recGet r "id" = some v ∧ pyTruthy v = true ∧ seenHas seen v = false ∧
        pyIsTrue (recGet r "closed") = true := by
  intro stream
  induction stream with
  | nil => intro seen r h; simp [collectMarkets] at h
  | cons m rest ih =>
    intro seen r h
    rw [collectMarkets] at h
    split at h
    · rename_i v hid
      split at h
      · rename_i hc
        rcases List.mem_cons.mp h with hr | hr
        · subst hr
          simp only [Bool.and_eq_true, Bool.not_eq_true'] at hc
          exact ⟨v, hid, hc.1.1, hc.1.2, hc.2⟩
        · rcases ih (v :: seen) r hr with ⟨w, hw, ht, hs, hcl⟩
          refine ⟨w, hw, ht, ?_, hcl⟩
          simp only [seenHas, List.any_cons, Bool.or_eq_false_iff] at hs
          simpa [seenHas] using hs.2
      · exact ih seen r h
    · exact ih seen r h

/-- A record whose `closed` field is falsy is rejected by
`is_valid_market` by a normal `False` return, before any of the textual
machinery runs. -/
theorem is_valid_market_closed_falsy (m : Record)
    (h : pyTruthy ((recGet m "closed").getD (.bool false)) = false) :
    is_valid_market m = some false := by
  rw [is_valid_market, h]
  rfl

/-! ## Claim theorems -/

/-- **C7.** In the composite validator's keyword check, a record is
accepted only if its combined lowercased question-plus-description text
contains at least one term from each of the two configured keyword sets
(`WIN_KEYWORDS` and `ELECTION_KEYWORDS`); a hit in only one set leaves
the final conjunction false, so the record is rejected. -/
theorem validator_requires_both_keyword_sets (m : Record)
    (h : is_valid_market m = some true) :
    ∃ t, text_content m = some t ∧
      WIN_KEYWORDS.any (fun k => strContains t k) = true ∧
      ELECTION_KEYWORDS.any (fun k => strContains t k) = true := by
  rw [is_valid_market] at h
  split at h
  · exact absurd h (by simp)
  · split at h
    · split at h
      · exact absurd h (by simp)
      · split at h
        · exact absurd h (by simp)
        · split at h
          · exact absurd h (by simp)
          · rcases htc : text_content m with _ | t
            · rw [htc] at h; exact absurd h (by simp)
            · rw [htc] at h
              simp only [Option.bind_eq_bind, Option.some_bind, Option.pure_def,
                Option.some.injEq, Bool.and_eq_true] at h
              exact ⟨t, rfl, h.1, h.2⟩
    · exact absurd h (by simp)

/-- **C7 witness.** -/
theorem validator_requires_both_keyword_sets_witness :
    ∃ t, text_content mValid = some t ∧
      WIN_KEYWORDS.any (fun k => strContains t k) = true ∧
      ELECTION_KEYWORDS.any (fun k => strContains t k) = true :=
  validator_requires_both_keyword_sets mValid (by decide)

/-- **C10.** Every record accepted by the composite validator has a
truthy `closed` field; a record with `closed` absent or falsy is rejected
with a plain `False` return before any textual check can run (even when
the textual fields would make those checks raise); and every record
admitted by the `query_elections` collection pass has `closed == True`. -/
theorem validator_requires_closed (m : Record) :
    (is_valid_market m = some true →
      pyTruthy ((recGet m "closed").getD (.bool false)) = true) ∧
    (pyTruthy ((recGet m "closed").getD (.bool false)) = false →
      is_valid_market m = some false) ∧
    (∀ seen stream, m ∈ collectMarkets seen stream →
      pyIsTrue (recGet m "closed") = true) := by
  refine ⟨?_, is_valid_market_closed_falsy m, ?_⟩
  · intro h
    by_contra hc
    rw [Bool.not_eq_true] at hc
    rw [is_valid_market_closed_falsy m hc] at h
    exact absurd h (by simp)
  · intro seen stream hmem
    rcases mem_collectMarkets stream seen m hmem with ⟨v, _, _, _, hcl⟩
    exact hcl

/-- **C10 witness.** -/
theorem validator_requires_closed_witness :
    pyTruthy ((recGet mValid "closed").getD (.bool false)) = true ∧
    is_valid_market mNoClosed = some false :=
  ⟨(validator_requires_closed mValid).1 (by decide),
   (validator_requires_closed mNoClosed).2.1 (by decide)⟩

/-- **C4 (code bug).**  In `query_elections.fetch_markets_batched`, a
page fetch whose transport requests fail on all `max_retries = 3`
attempts does *not* resolve to an empty page outcome: when this happens
on the first page of the first term, both failure branches `break` out
of the retry loop without ever assigning the local `markets`, and the
subsequent `len(markets)` check raises `UnboundLocalError` out of the
function.  (The sibling implementation `top_election_vol.fetch_markets_batch`
does behave as the claim states; that direction is proved separately for
the fetch loop of `top_election_vol`.) -/
theorem qe_retry_exhaustion_raises :
    fetch_markets_batched trAllFail ["election"] 50 3 20 5 = .error .unboundLocal := rfl

/-- **C9 (code bug).**  A malformed response shape is not always
non-fatal: in `query_elections.fetch_markets_batched`, a response that is
a bare JSON array (or any body without a `markets` list) on the first
page of the first term leads to the `len(markets)` check raising
`UnboundLocalError` out of the harvest instead of degrading to a smaller
result. -/
theorem qe_malformed_shape_raises :
    fetch_markets_batched trBareArray ["election"] 50 3 20 5 = .error .unboundLocal := rfl

/-- In `top_election_vol.fetch_markets_batch`, exhausting all retries
resolves the page to an empty record list (helper; the `except` arm of
the source catches every exception, so the model's return type has no
error case at all). -/
theorem fetchFor_all_fail (tr : Nat → Option Value) (mr base : Nat)
    (hfail : ∀ i, tr i = none) :
    ∀ n s, s + n = mr → 0 < n →
      (fetchFor tr mr base (List.range' s n)).2.2 = some (.list []) := by
  intro n
  induction n with
  | zero => intro s _ h0; omega
  | succ n ih =>
    intro s hsum _
    rw [List.range'_succ]
    simp only [fetchFor, hfail s]
    rcases Nat.eq_zero_or_pos n with hn | hn
    · subst hn
      have hns : ¬ s < mr - 1 := by omega
      simp [hns]
    · have hlt : s < mr - 1 := by omega
      simp only [if_pos hlt]
      exact ih (s + 1) (by omega) hn

/-- The page outcome of `fetch_markets_batch` after all attempts fail is
the empty list, with no exception to the caller. -/
theorem retry_exhaustion_empty_page (tr : Nat → Option Value) (mr base : Nat)
    (h0 : 0 < mr) (hfail : ∀ i, tr i = none) :
    (fetch_markets_batch tr mr base).2.2 = some (.list []) := by
  rw [fetch_markets_batch, List.range_eq_range']
  exact fetchFor_all_fail tr mr base hfail mr 0 (by omega) h0

/-- Trace of the `top_election_vol` retry loop over the attempt indices
`s, …, s+n-1` of a loop of `mr` total attempts: the delays slept are
`base * 2 ^ k` for the first `min (failStreak) (n-1)` indices `k`, and at
most `n` attempts are issued. -/
theorem fetchFor_trace (tr : Nat → Option Value) (mr base : Nat) :
    ∀ n s, s + n = mr →
      (fetchFor tr mr base (List.range' s n)).1 =
        (List.range' s (min (failStreakAux tr n s) (n - 1))).map (fun k => base * 2 ^ k) ∧
      (fetchFor tr mr base (List.range' s n)).2.1 ≤ n := by
  intro n
  induction n with
  | zero => intro s _; simp [fetchFor, failStreakAux]
  | succ n ih =>
    intro s hsum
    rw [List.range'_succ]
    rcases htr : tr s with _ | d
    · rcases Nat.eq_zero_or_pos n with hn | hn
      · subst hn
        have hns : ¬ s < mr - 1 := by omega
        simp [fetchFor, htr, hns, failStreakAux]
      · have hlt : s < mr - 1 := by omega
        have htail := ih (s + 1) (by omega)
        have hmin : min (failStreakAux tr n (s + 1) + 1) (n + 1 - 1) =
            min (failStreakAux tr n (s + 1)) (n - 1) + 1 := by omega
        constructor
        · simp only [fetchFor, htr, if_pos hlt, failStreakAux, hmin, List.range'_succ,
            List.map_cons]
          exact congrArg _ htail.1
        · simp only [fetchFor, htr, if_pos hlt]
          exact Nat.succ_le_succ htail.2
    · simp [fetchFor, htr, failStreakAux]

/-- Trace of the `query_elections` retry loop: whenever it returns
normally, the backoff delays appended to the state are `2 ^ k` for
`k = s, …, s + min (failStreak) (n-1) - 1`. -/
theorem qeRetryFor_delays (tr : Nat → Nat → Option Value) (mr ps : Nat) :
    ∀ n s st st', s + n = mr →
      qeRetryFor tr mr ps st (List.range' s n) = .ok st' →
      st'.delays = st.delays ++
        (List.range' s (min (failStreakAux (fun k => tr st.offset k) n s) (n - 1))).map
          (fun k => 2 ^ k) := by
  intro n
  induction n with
  | zero =>
    intro s st st' _ h
    simp only [List.range', qeRetryFor, Except.ok.injEq] at h
    subst h
    simp [failStreakAux]
  | succ n ih =>
    intro s st st' hsum h
    rw [List.range'_succ] at h
    rcases htr : tr st.offset s with _ | d
    · rcases Nat.eq_zero_or_pos n with hn | hn
      · subst hn
        have hns : ¬ s < mr - 1 := by omega
        simp only [qeRetryFor, htr, if_neg hns, Except.ok.injEq] at h
        subst h
        simp [failStreakAux, htr]
      · have hlt : s < mr - 1 := by omega
        simp only [qeRetryFor, htr, if_pos hlt] at h
        have htail := ih (s + 1) { st with delays := st.delays ++ [2 ^ s] } st' (by omega) h
        have hmin : min (failStreakAux (fun k => tr st.offset k) n (s + 1) + 1) (n + 1 - 1) =
            min (failStreakAux (fun k => tr st.offset k) n (s + 1)) (n - 1) + 1 := by omega
        simp only [failStreakAux, htr, hmin, List.range'_succ, List.map_cons]
        simp only at htail
        rw [htail, List.append_assoc]
        rfl
    · simp only [qeRetryFor, htr] at h
      have hf : failStreakAux (fun k => tr st.offset k) (n + 1) s = 0 := by
        simp [failStreakAux, htr]
      rcases hex : qeExtract d with ms | _ | _ <;> rw [hex] at h <;> dsimp only at h
      · by_cases hms : ms.isEmpty = true
        · rw [if_pos hms, Except.ok.injEq] at h
          subst h
          simp [hf]
        · rw [if_neg hms] at h
          rcases hcl : qeCollectLoop (st.termMarkets, st.seen) ms with e | p <;>
            rw [hcl] at h
          · exact absurd h (by simp)
          · rw [Except.ok.injEq] at h
            subst h
            simp [hf]
      · rw [Except.ok.injEq] at h
        subst h
        simp [hf]
      · exact absurd h (by simp)

/-- **C8.**  On transport failure the retry delay sequence is exactly
`baseDelay * 2 ^ attempt` for successive failed attempts (`attempt`
counted from `0`; `baseDelay = 5` seconds in `top_election_vol`,
`1` second in `query_elections`), and at most `maxRetries` attempts are
issued for a page. -/
theorem retry_backoff_schedule :
    (∀ (tr : Nat → Option Value) (mr base : Nat),
      (fetch_markets_batch tr mr base).1 =
        (List.range (min (failStreak tr mr) (mr - 1))).map (fun k => base * 2 ^ k) ∧
      (fetch_markets_batch tr mr base).2.1 ≤ mr) ∧
    (∀ (tr : Nat → Nat → Option Value) (mr ps : Nat) (st st' : QESt),
      qeRetryFor tr mr ps st (List.range mr) = .ok st' →
      st'.delays = st.delays ++
        (List.range (min (failStreakAux (fun k => tr st.offset k) mr 0) (mr - 1))).map
          (fun k => 2 ^ k)) := by
  constructor
  · intro tr mr base
    have h := fetchFor_trace tr mr base mr 0 (by omega)
    rw [fetch_markets_batch, List.range_eq_range']
    exact ⟨by rw [h.1, failStreak, List.range_eq_range'], h.2⟩
  · intro tr mr ps st st' h
    rw [List.range_eq_range'] at h
    rw [qeRetryFor_delays tr mr ps mr 0 st st' (by omega) h, List.range_eq_range']

/-- `seenHas` on a grown seen set. -/
theorem seenHas_cons (w : Value) (seen : List Value) (v : Value) :
    seenHas (w :: seen) v = (pyEq w v || seenHas seen v) := rfl

/-- The records admitted by the collection pass carry pairwise
non-equal identifiers. -/
theorem collectMarkets_pairwise_ids :
    ∀ (stream : List Record) (seen : List Value),
      (collectMarkets seen stream).Pairwise
        (fun r s => ∀ v w, recGet r "id" = some v → recGet s "id" = some w →
          pyEq v w = false) := by
  intro stream
  induction stream with
  | nil => intro seen; simp [collectMarkets]
  | cons m rest ih =>
    intro seen
    rw [collectMarkets]
    split
    · rename_i v hid
      split
      · refine List.Pairwise.cons ?_ (ih (v :: seen))
        intro r hr w1 w2 h1 h2
        rw [hid, Option.some.injEq] at h1
        subst h1
        rcases mem_collectMarkets rest (v :: seen) r hr with ⟨w, hw, _, hs, _⟩
        rw [h2, Option.some.injEq] at hw
        subst hw
        rw [seenHas_cons, Bool.or_eq_false_iff] at hs
        exact hs.1
      · exact ih seen
    · exact ih seen

/-- Inserting an unmatched key into a Python dict appends it. -/
theorem dictInsert_append :
    ∀ (acc : List (Value × Record)) (v : Value) (m : Record),
      (∀ kv ∈ acc, pyEq kv.1 v = false) →
      dictInsert acc v m = acc ++ [(v, m)] := by
  intro acc
  induction acc with
  | nil => intro v m _; rfl
  | cons kv rest ih =>
    intro v m h
    rcases kv with ⟨k', m'⟩
    rw [dictInsert]
    rw [if_neg (by simp [h (k', m') (List.mem_cons_self _ _)])]
    rw [ih v m (fun kv hkv => h kv (List.mem_cons_of_mem _ hkv)), List.cons_append]

/-- On a list of records with truthy, pairwise non-equal identifiers the
dict-comprehension pass is the identity (up to the accumulator). -/
theorem uniqueBuild_clean :
    ∀ (ms : List Record) (acc : List (Value × Record)),
      (∀ r ∈ ms, ∃ v, recGet r "id" = some v ∧ pyTruthy v = true) →
      ms.Pairwise (fun r s => ∀ v w, recGet r "id" = some v →
        recGet s "id" = some w → pyEq v w = false) →
      (∀ kv ∈ acc, ∀ r ∈ ms, ∀ w, recGet r "id" = some w → pyEq kv.1 w = false) →
      (uniqueBuild acc ms).map Prod.snd = acc.map Prod.snd ++ ms := by
  intro ms
  induction ms with
  | nil => intro acc _ _ _; simp [uniqueBuild]
  | cons m rest ih =>
    intro acc hids hpw hacc
    rcases hids m (List.mem_cons_self _ _) with ⟨v, hid, htr⟩
    rw [uniqueBuild]
    simp only [hid, htr, if_true]
    rw [dictInsert_append acc v m
      (fun kv hkv => hacc kv hkv m (List.mem_cons_self _ _) v hid)]
    rw [ih (acc ++ [(v, m)])
      (fun r hr => hids r (List.mem_cons_of_mem _ hr))
      (List.Pairwise.of_cons hpw)
      ?_]
    · simp
    · intro kv hkv r hr w hw
      rcases List.mem_append.mp hkv with hkv | hkv
      · exact hacc kv hkv r (List.mem_cons_of_mem _ hr) w hw
      · rw [List.mem_singleton] at hkv
        subst hkv
        exact List.rel_of_pairwise_cons hpw hr v w hid hw

/-- The dict-comprehension pass of line 168 does not change the already
deduplicated collection output. -/
theorem qeMerge_eq_collect (stream : List Record) :
    qeMerge stream = collectMarkets [] stream := by
  rw [qeMerge, uniqueMarkets]
  have h := uniqueBuild_clean (collectMarkets [] stream) []
    (fun r hr => by
      rcases mem_collectMarkets stream [] r hr with ⟨v, hid, htr, _, _⟩
      exact ⟨v, hid, htr⟩)
    (collectMarkets_pairwise_ids stream [])
    (by simp)
  simpa using h

/-- The first admissible occurrence of an identifier (truthy id, closed
`== True`, no earlier admissible record with an equal id) is retained. -/
theorem collect_first_admissible :
    ∀ (pre : List Record) (seen : List Value) (r : Record) (post : List Record) (v : Value),
      recGet r "id" = some v → pyTruthy v = true → pyIsTrue (recGet r "closed") = true →
      seenHas seen v = false →
      (∀ r' ∈ pre, ∀ w, recGet r' "id" = some w → pyTruthy w = true →
        pyIsTrue (recGet r' "closed") = true → pyEq w v = false) →
      r ∈ collectMarkets seen (pre ++ r :: post) := by
  intro pre
  induction pre with
  | nil =>
    intro seen r post v hid htr hcl hs _
    rw [List.nil_append, collectMarkets]
    simp only [hid, htr, hs, hcl]
    simp
  | cons x pre' ih =>
    intro seen r post v hid htr hcl hs hpre
    rw [List.cons_append, collectMarkets]
    have hpre' : ∀ r' ∈ pre', ∀ w, recGet r' "id" = some w → pyTruthy w = true →
        pyIsTrue (recGet r' "closed") = true → pyEq w v = false :=
      fun r' hr' => hpre r' (List.mem_cons_of_mem _ hr')
    rcases hxid : recGet x "id" with _ | w
    · exact ih seen r post v hid htr hcl hs hpre'
    · dsimp only
      by_cases hadm : (pyTruthy w && !seenHas seen w && pyIsTrue (recGet x "closed")) = true
      · rw [if_pos hadm]
        have hc := hadm
        simp only [Bool.and_eq_true] at hc
        have hwv : pyEq w v = false :=
          hpre x (List.mem_cons_self _ _) w hxid hc.1.1 hc.2
        refine List.mem_cons_of_mem x (ih (w :: seen) r post v hid htr hcl ?_ hpre')
        rw [seenHas_cons, hwv, hs]
        rfl
      · rw [if_neg hadm]
        exact ih seen r post v hid htr hcl hs hpre'

/-- The decorated sort is sorted for the tie-breaking total order. -/
theorem stableSortDescIdx_sorted (key : α → Rat) (l : List α) :
    (stableSortDescIdx key l).Pairwise (descIdxRel key) :=
  List.sorted_insertionSort (descIdxRel key) l.enum

/-- The decorated sort permutes the decorated input. -/
theorem stableSortDescIdx_perm (key : α → Rat) (l : List α) :
    List.Perm (stableSortDescIdx key l) l.enum :=
  List.perm_insertionSort _ _

/-- All decoration indices in the sorted list are distinct. -/
theorem stableSortDescIdx_fst_ne (key : α → Rat) (l : List α) :
    (stableSortDescIdx key l).Pairwise (fun a b => a.1 ≠ b.1) := by
  have henum : l.enum.Pairwise (fun a b : Nat × α => a.1 ≠ b.1) := by
    have h1 : (l.enum.map Prod.fst).Pairwise (fun a b : Nat => a ≠ b) := by
      rw [List.enum_map_fst]
      exact (List.pairwise_lt_range _).imp Nat.ne_of_lt
    exact List.pairwise_map.mp h1
  exact ((stableSortDescIdx_perm key l).pairwise_iff (fun h => Ne.symm h)).mpr henum

/-- The decorated sort is pairwise strictly ordered: descending keys,
ties resolved by ascending original position. -/
theorem stableSortDescIdx_pairwise_strict (key : α → Rat) (l : List α) :
    (stableSortDescIdx key l).Pairwise (descStrict key) := by
  have h := (stableSortDescIdx_sorted key l).and (stableSortDescIdx_fst_ne key l)
  refine h.imp ?_
  intro a b hab
  rcases hab with ⟨hle, hne⟩
  simp only [descIdxRel, descIdxLE, Bool.or_eq_true, Bool.and_eq_true,
    decide_eq_true_eq] at hle
  rcases hle with h1 | ⟨he, hi⟩
  · exact Or.inl h1
  · exact Or.inr ⟨he, lt_of_le_of_ne hi hne⟩

/-- The undecorated output is sorted by non-increasing key. -/
theorem stableSortDesc_sorted (key : α → Rat) (l : List α) :
    (stableSortDesc key l).Pairwise (fun a b => key b ≤ key a) := by
  rw [stableSortDesc, List.pairwise_map]
  refine (stableSortDescIdx_pairwise_strict key l).imp ?_
  intro a b hab
  rcases hab with h | ⟨he, _⟩
  · exact le_of_lt h
  · exact le_of_eq he.symm

/-- Sorting preserves length. -/
theorem stableSortDesc_length (key : α → Rat) (l : List α) :
    (stableSortDesc key l).length = l.length := by
  rw [stableSortDesc, List.length_map, stableSortDescIdx, List.length_insertionSort,
    List.enum_length]

/-- Sorting produces no new elements. -/
theorem stableSortDesc_mem (key : α → Rat) (l : List α) (a : α)
    (h : a ∈ stableSortDesc key l) : a ∈ l := by
  rw [stableSortDesc] at h
  rcases List.mem_map.mp h with ⟨p, hp, rfl⟩
  rw [stableSortDescIdx, List.mem_insertionSort] at hp
  exact List.snd_mem_of_mem_enum hp

/-- The parallel validator filter keeps a subsequence of the input whose
length is the number of records the validator accepts. -/
theorem topFilterValid_spec :
    ∀ (ms fl : List Record), topFilterValid ms = some fl →
      fl.Sublist ms ∧
      fl.length = ms.countP (fun m => decide (is_valid_market m = some true)) := by
  intro ms
  induction ms with
  | nil =>
    intro fl h
    simp only [topFilterValid, Option.some.injEq] at h
    subst h
    simp
  | cons m rest ih =>
    intro fl h
    rw [topFilterValid] at h
    rcases hb : is_valid_market m with _ | b
    · rw [hb] at h
      exact absurd h (by simp)
    · rcases ht : topFilterValid rest with _ | tl
      · rw [hb, ht] at h
        exact absurd h (by simp)
      · rw [hb, ht] at h
        simp only [Option.bind_eq_bind, Option.some_bind, Option.pure_def,
          Option.some.injEq] at h
        rcases ih tl ht with ⟨hsub, hlen⟩
        cases b
        · simp only [Bool.false_eq_true, if_false] at h
          subst h
          refine ⟨hsub.cons m, ?_⟩
          rw [List.countP_cons]
          simp [hb, hlen]
        · simp only [if_true] at h
          subst h
          refine ⟨hsub.cons₂ m, ?_⟩
          rw [List.countP_cons]
          simp [hb, hlen]

/-- The filter-and-coerce pass keeps exactly the records accepted by
`is_election_related`. -/
theorem qeFilterCoerce_spec :
    ∀ (ms em : List Record), qeFilterCoerce ms = some em →
      em.length = ms.countP (fun m => decide (is_election_related m = some true)) := by
  intro ms
  induction ms with
  | nil =>
    intro em h
    simp only [qeFilterCoerce, Option.some.injEq] at h
    subst h
    simp
  | cons m rest ih =>
    intro em h
    rw [qeFilterCoerce] at h
    rcases hb : is_election_related m with _ | b
    · rw [hb] at h
      exact absurd h (by simp)
    · rcases ht : qeFilterCoerce rest with _ | tl
      · rw [hb, ht] at h
        exact absurd h (by simp)
      · rw [hb, ht] at h
        simp only [Option.bind_eq_bind, Option.some_bind, Option.pure_def,
          Option.some.injEq] at h
        have hlen := ih tl ht
        cases b
        · simp only [Bool.false_eq_true, if_false] at h
          subst h
          rw [List.countP_cons]
          simp [hb, hlen]
        · simp only [if_true] at h
          subst h
          rw [List.countP_cons]
          simp [hb, hlen]

/-- A synthetic page is empty exactly when the page size is zero or the
offset lies at or beyond the end of the store. -/
theorem storeFetch_eq_nil (N o L : Nat) : storeFetch N o L = [] ↔ L = 0 ∨ N ≤ o := by
  rw [← List.length_eq_zero, storeFetch, List.length_take, List.length_drop,
    List.length_range]
  omega

/-- A wave's `all_empty` flag is set exactly when the cursor is at or
beyond the end of the store. -/
theorem waveAllEmpty_iff (N P W c : Nat) (hP : 0 < P) (hW : 0 < W) :
    waveAllEmpty (wave N P W c) = true ↔ N ≤ c := by
  rw [waveAllEmpty, wave, List.all_eq_true]
  constructor
  · intro h
    have h0 := h (storeFetch N (c + 0 * P) P)
      (List.mem_map.mpr ⟨0, List.mem_range.mpr hW, rfl⟩)
    rw [List.isEmpty_iff, storeFetch_eq_nil] at h0
    omega
  · intro h l hl
    rcases List.mem_map.mp hl with ⟨i, _, rfl⟩
    rw [List.isEmpty_iff, storeFetch_eq_nil]
    right
    omega

/-- One step of the ceiling-division count of remaining waves. -/
theorem ceil_step (d m : Nat) (hm : 0 < m) (hd : 0 < d) :
    (d + m - 1) / m = ((d - m) + m - 1) / m + 1 := by
  rcases le_or_lt d m with h | h
  · have h1 : d - m = 0 := by omega
    rw [h1]
    have h2 : (m - 1) / m = 0 := Nat.div_eq_of_lt (by omega)
    rw [Nat.zero_add, h2]
    have h3 : d + m - 1 = (d - 1) + m := by omega
    rw [h3, Nat.add_div_right _ hm]
    have h4 : (d - 1) / m = 0 := Nat.div_eq_of_lt (by omega)
    rw [h4]
  · have h3 : d + m - 1 = (d - 1) + m := by omega
    have h5 : (d - m) + m - 1 = d - 1 := by omega
    rw [h3, h5, Nat.add_div_right _ hm]

/-- The wave loop from any cursor: with enough fuel it terminates, issues
exactly `wavesLeft` waves, every wave before the last has a worker with
records (so the sweep continues past it), and the last wave is fully
empty (and only it ends the sweep). -/
theorem fetchAllWaves_spec (N P W : Nat) (hP : 0 < P) (hW : 0 < W) :
    ∀ (fuel c : Nat), wavesLeft N (P * W) c ≤ fuel →
      ∃ ws, fetchAllWaves N P W fuel c = some ws ∧
        ws.length = wavesLeft N (P * W) c ∧
        (∀ w ∈ ws.dropLast, waveAllEmpty w = false) ∧
        (∀ w, ws.getLast? = some w → waveAllEmpty w = true) := by
  intro fuel
  induction fuel with
  | zero =>
    intro c h
    rw [wavesLeft] at h
    exact absurd h (Nat.not_succ_le_zero _)
  | succ fuel ih =>
    intro c hfuel
    have hm : 0 < P * W := Nat.mul_pos hP hW
    rw [fetchAllWaves]
    by_cases hend : N ≤ c
    · have hempty : waveAllEmpty (wave N P W c) = true :=
        (waveAllEmpty_iff N P W c hP hW).mpr hend
      rw [if_pos hempty]
      refine ⟨[wave N P W c], rfl, ?_, by simp, ?_⟩
      · rw [wavesLeft]
        have h0 : N - c = 0 := by omega
        rw [h0, Nat.zero_add]
        have h1 : (P * W - 1) / (P * W) = 0 := Nat.div_eq_of_lt (by omega)
        rw [h1]
        rfl
      · intro w hw
        simp only [List.getLast?_singleton, Option.some.injEq] at hw
        rw [← hw]
        exact hempty
    · have hlt : c < N := by omega
      have hnonempty : waveAllEmpty (wave N P W c) = false := by
        rw [← Bool.not_eq_true, waveAllEmpty_iff N P W c hP hW]
        omega
      rw [if_neg (by simp [hnonempty])]
      have hstep : wavesLeft N (P * W) c = wavesLeft N (P * W) (c + P * W) + 1 := by
        rw [wavesLeft, wavesLeft]
        have hd : 0 < N - c := by omega
        have hcs := ceil_step (N - c) (P * W) hm hd
        have harith : N - (c + P * W) = (N - c) - (P * W) := by omega
        rw [harith]
        omega
      rcases ih (c + P * W) (by omega) with ⟨ws, hws, hlen, hdrop, hlast⟩
      rw [hws]
      have hne : ws ≠ [] := by
        intro hnil
        rw [hnil] at hlen
        rw [wavesLeft] at hlen
        simp at hlen
      refine ⟨wave N P W c :: ws, rfl, ?_, ?_, ?_⟩
      · simp [hlen, hstep]
      · intro w hw
        rw [List.dropLast_cons_of_ne_nil hne] at hw
        rcases List.mem_cons.mp hw with rfl | hw
        · exact hnonempty
        · exact hdrop w hw
      · intro w hw
        rcases ws with _ | ⟨w', ws'⟩
        · exact absurd rfl hne
        · rw [List.getLast?_cons_cons] at hw
          exact hlast w hw

/-- **C1.**  Sweep termination of the wave scheduler against a synthetic
store of exactly `N` records with page size `P` and worker count `W`:
with fuel at least `ceil(N/(P*W)) + 1` the loop terminates and issues
exactly `ceil(N/(P*W))` waves in which at least one worker returns
records, followed by exactly one fully-empty wave, which is the only wave
that ends the sweep (by definition of `fetchAllWaves`, a wave whose
`all_empty` flag is false is always followed by another wave; partial
waves do not terminate the sweep). -/
theorem waveScheduler_termination (N P W fuel : Nat) (hP : 0 < P) (hW : 0 < W)
    (hfuel : (N + P * W - 1) / (P * W) + 1 ≤ fuel) :
    ∃ ws, fetchAllWaves N P W fuel 0 = some ws ∧
      ws.length = (N + P * W - 1) / (P * W) + 1 ∧
      (∀ w ∈ ws.dropLast, waveAllEmpty w = false) ∧
      (∀ w, ws.getLast? = some w → waveAllEmpty w = true) := by
  have h := fetchAllWaves_spec N P W hP hW fuel 0 (by rw [wavesLeft]; simpa using hfuel)
  simpa [wavesLeft] using h

/-- **C1 witness.**  `N = 5`, `P = 2`, `W = 2`: two waves with records
(`ceil(5/4) = 2`), then one empty wave. -/
theorem waveScheduler_termination_witness :
    ∃ ws, fetchAllWaves 5 2 2 3 0 = some ws ∧
      ws.length = (5 + 2 * 2 - 1) / (2 * 2) + 1 ∧
      (∀ w ∈ ws.dropLast, waveAllEmpty w = false) ∧
      (∀ w, ws.getLast? = some w → waveAllEmpty w = true) :=
  waveScheduler_termination 5 2 2 3 (by decide) (by decide) (by decide)

/-- **C3.**  For both rankers (`get_top_markets_by_volume` and
`get_election_markets`), whenever the pipeline completes: the output is
the index-decorated stable descending sort of the validator-surviving
records truncated to the limit; its length is
`min(limit, number of records passing the validator)`; it is sorted by
non-increasing ranking key; every output record passed the filter; and
the decorated truncation is pairwise strictly ordered — strictly larger
key first, key ties resolved by strictly earlier discovery position
(stability). -/
theorem ranker_sorted_stable_bounded :
    (∀ (ms : List Record) (n : Nat) (out : List Record),
      get_top_markets_by_volume ms n = some out →
      ∃ fl, topFilterValid ms = some fl ∧ fl.Sublist ms ∧
        out = ((stableSortDescIdx get_volume fl).take n).map Prod.snd ∧
        out.length = min n (ms.countP (fun m => decide (is_valid_market m = some true))) ∧
        out.Pairwise (fun a b => get_volume b ≤ get_volume a) ∧
        (∀ r ∈ out, r ∈ fl) ∧
        ((stableSortDescIdx get_volume fl).take n).Pairwise (descStrict get_volume)) ∧
    (∀ (ms : List Record) (limit : Nat) (out : List Record),
      get_election_markets ms limit = some out →
      ∃ em, qeFilterCoerce ms = some em ∧
        out = ((stableSortDescIdx qeSortKey em).take limit).map Prod.snd ∧
        out.length = min limit (ms.countP (fun m => decide (is_election_related m = some true))) ∧
        out.Pairwise (fun a b => qeSortKey b ≤ qeSortKey a) ∧
        (∀ r ∈ out, r ∈ em) ∧
        ((stableSortDescIdx qeSortKey em).take limit).Pairwise (descStrict qeSortKey)) := by
  constructor
  · intro ms n out h
    rw [get_top_markets_by_volume] at h
    rcases hfl : topFilterValid ms with _ | fl
    · rw [hfl] at h
      exact absurd h (by simp)
    · rw [hfl] at h
      simp only [Option.bind_eq_bind, Option.some_bind, Option.pure_def,
        Option.some.injEq] at h
      rcases topFilterValid_spec ms fl hfl with ⟨hsub, hlen⟩
      refine ⟨fl, rfl, hsub, ?_, ?_, ?_, ?_, ?_⟩
      · rw [← h, stableSortDesc, List.map_take]
      · rw [← h, List.length_take, stableSortDesc_length, hlen]
      · rw [← h]
        exact List.Pairwise.sublist (List.take_sublist _ _) (stableSortDesc_sorted _ _)
      · intro r hr
        rw [← h] at hr
        exact stableSortDesc_mem _ _ _ (List.mem_of_mem_take hr)
      · exact List.Pairwise.sublist (List.take_sublist _ _)
          (stableSortDescIdx_pairwise_strict _ _)
  · intro ms limit out h
    rw [get_election_markets] at h
    rcases hem : qeFilterCoerce ms with _ | em
    · rw [hem] at h
      exact absurd h (by simp)
    · rw [hem] at h
      simp only [Option.bind_eq_bind, Option.some_bind, Option.pure_def,
        Option.some.injEq] at h
      have hlen := qeFilterCoerce_spec ms em hem
      refine ⟨em, rfl, ?_, ?_, ?_, ?_, ?_⟩
      · rw [← h, stableSortDesc, List.map_take]
      · rw [← h, List.length_take, stableSortDesc_length, hlen]
      · rw [← h]
        exact List.Pairwise.sublist (List.take_sublist _ _) (stableSortDesc_sorted _ _)
      · intro r hr
        rw [← h] at hr
        exact stableSortDesc_mem _ _ _ (List.mem_of_mem_take hr)
      · exact List.Pairwise.sublist (List.take_sublist _ _)
          (stableSortDescIdx_pairwise_strict _ _)

/-- **C3 witness.** -/
theorem ranker_sorted_stable_bounded_witness :
    (∃ fl, topFilterValid [mRankA, mRankB, mRankC] = some fl ∧
      fl.Sublist [mRankA, mRankB, mRankC] ∧
      [mRankB] = ((stableSortDescIdx get_volume fl).take 1).map Prod.snd ∧
      [mRankB].length = min 1 ([mRankA, mRankB, mRankC].countP
        (fun m => decide (is_valid_market m = some true))) ∧
      [mRankB].Pairwise (fun a b => get_volume b ≤ get_volume a) ∧
      (∀ r ∈ [mRankB], r ∈ fl) ∧
      ((stableSortDescIdx get_volume fl).take 1).Pairwise (descStrict get_volume)) ∧
    (∃ em, qeFilterCoerce [mQeA, mQeB] = some em ∧
      [mQeA] = ((stableSortDescIdx qeSortKey em).take 5).map Prod.snd ∧
      [mQeA].length = min 5 ([mQeA, mQeB].countP
        (fun m => decide (is_election_related m = some true))) ∧
      [mQeA].Pairwise (fun a b => qeSortKey b ≤ qeSortKey a) ∧
      (∀ r ∈ [mQeA], r ∈ em) ∧
      ((stableSortDescIdx qeSortKey em).take 5).Pairwise (descStrict qeSortKey)) :=
  ⟨ranker_sorted_stable_bounded.1 [mRankA, mRankB, mRankC] 1 [mRankB] rfl,
   ranker_sorted_stable_bounded.2 [mQeA, mQeB] 5 [mQeA] rfl⟩

/-- **C2 counterexample.**  With two records sharing identifier `"1"`, the
first not closed and the second closed, the merge retains the *second*
occurrence: the collection pass of lines 133-137 interleaves a
`closed == True` test with the seen-set check, so the first occurrence is
not admitted and does not claim the identifier.  The claim's first-wins
rule (which drops records only for a missing/null identifier) predicts
that the first occurrence is retained. -/
theorem dedup_first_wins_counterexample :
    qeMerge [rDupOpen, rDupClosed] = [rDupClosed] ∧
    recGet rDupOpen "id" = some (.str "1") ∧
    recGet rDupClosed "id" = some (.str "1") ∧
    rDupClosed ≠ rDupOpen := by
  refine ⟨rfl, rfl, rfl, by simp [rDupOpen, rDupClosed]⟩

/-- **C2 (amended).**  The merged output of `fetch_markets_batched`'s
deduplication machinery: (1) the last-wins dict pass of line 168 is the
identity on the already-deduplicated collection, (2) no two output
records have `==`-equal identifiers, (3) every output record has a truthy
identifier and `closed == True` (records with missing, null or otherwise
falsy ids, and records not closed, are dropped), and (4) first-wins holds
among *admissible* records: the first occurrence with a truthy id and
`closed == True` whose id no earlier admissible record carries is
retained. -/
theorem dedup_merge_amended (stream : List Record) :
    qeMerge stream = collectMarkets [] stream ∧
    (qeMerge stream).Pairwise (fun r s => ∀ v w, recGet r "id" = some v →
      recGet s "id" = some w → pyEq v w = false) ∧
    (∀ r ∈ qeMerge stream, ∃ v, recGet r "id" = some v ∧ pyTruthy v = true ∧
      pyIsTrue (recGet r "closed") = true) ∧
    (∀ (pre : List Record) (r : Record) (post : List Record) (v : Value),
      stream = pre ++ r :: post →
      recGet r "id" = some v → pyTruthy v = true → pyIsTrue (recGet r "closed") = true →
      (∀ r' ∈ pre, ∀ w, recGet r' "id" = some w → pyTruthy w = true →
        pyIsTrue (recGet r' "closed") = true → pyEq w v = false) →
      r ∈ qeMerge stream) := by
  refine ⟨qeMerge_eq_collect stream, ?_, ?_, ?_⟩
  · rw [qeMerge_eq_collect stream]
    exact collectMarkets_pairwise_ids stream []
  · intro r hr
    rw [qeMerge_eq_collect stream] at hr
    rcases mem_collectMarkets stream [] r hr with ⟨v, hid, htr, _, hcl⟩
    exact ⟨v, hid, htr, hcl⟩
  · intro pre r post v hstream hid htr hcl hpre
    rw [qeMerge_eq_collect stream, hstream]
    exact collect_first_admissible pre [] r post v hid htr hcl rfl hpre

/-- **C2 witness.** -/
theorem dedup_merge_amended_witness :
    rDupClosed ∈ qeMerge [rDupOpen, rDupClosed] :=
  (dedup_merge_amended [rDupOpen, rDupClosed]).2.2.2 [rDupOpen] rDupClosed [] (.str "1")
    rfl rfl (by decide) (by decide)
    (by
      intro r' hr' w hw htr hcl
      rw [List.mem_singleton] at hr'
      subst hr'
      exact absurd hcl (by decide))

/-- **C8 witness.** -/
theorem retry_backoff_schedule_witness :
    (fetch_markets_batch (fun _ => none) 3 5).1 =
      (List.range (min (failStreak (fun _ => none) 3) 2)).map (fun k => 5 * 2 ^ k) ∧
    stExhausted.delays = st0.delays ++
      (List.range (min (failStreakAux (fun k => (fun _ _ => none : Nat → Nat → Option Value)
        st0.offset k) 3 0) 2)).map (fun k => 2 ^ k) :=
  ⟨(retry_backoff_schedule.1 (fun _ => none) 3 5).1,
   retry_backoff_schedule.2 (fun _ _ => none) 3 20 st0 stExhausted rfl⟩

/-- **C5 counterexample.**  The claim fails on the code in two concrete
ways.  (1) `query_elections` (lines 119-123) does *not* accept a bare
array of records: the body `[vRecord]` yields the "could not find markets
data" branch, not the record sequence.  (2) `top_election_vol`
(lines 72-73) answers a dict whose `markets` field is not an array with
that field's raw value (here `5`), not with zero records. -/
theorem pageFetcher_shape_counterexample :
    qeExtract (.list [vRecord]) = .missing ∧
    QEShape.missing ≠ QEShape.records [vRecord] ∧
    topExtract (.dict [("markets", .num 5)]) = .num 5 ∧
    Value.num 5 ≠ .list [] := by
  refine ⟨rfl, by simp, rfl, by simp⟩

/-- **C5 (amended).**  Shape handling, path by path.
`top_election_vol.fetch_markets_batch` accepts a bare array (returned
verbatim) and a dict with a `markets` key (whose value is returned
unchecked, even when it is not an array); every other shape yields zero
records.  `query_elections.fetch_markets_batched` accepts only a dict
whose `markets` field is a list; a bare array of records yields the
no-records branch for that page. -/
theorem pageFetcher_shape_amended :
    (∀ vs, topExtract (.list vs) = .list vs) ∧
    (∀ fs v, recGet fs "markets" = some v → topExtract (.dict fs) = v) ∧
    (∀ fs, recGet fs "markets" = none → topExtract (.dict fs) = .list []) ∧
    (topExtract .null = .list []) ∧
    (∀ b, topExtract (.bool b) = .list []) ∧
    (∀ q, topExtract (.num q) = .list []) ∧
    (∀ s, topExtract (.str s) = .list []) ∧
    (∀ fs ms, recGet fs "markets" = some (.list ms) → qeExtract (.dict fs) = .records ms) ∧
    (∀ vs, vs.all (fun v => !pyEq v (.str "markets")) = true →
      qeExtract (.list vs) = .missing) := by
  refine ⟨fun vs => rfl, ?_, ?_, rfl, fun b => rfl, fun q => rfl, fun s => rfl, ?_, ?_⟩
  · intro fs v h
    simp [topExtract, h]
  · intro fs h
    simp [topExtract, h]
  · intro fs ms h
    simp [qeExtract, h]
  · intro vs h
    have : vs.any (fun v => pyEq v (.str "markets")) = false := by
      rw [List.any_eq_false]
      intro v hv
      have := (List.all_eq_true.mp h) v hv
      simpa using this
    simp [qeExtract, this]

/-- **C6 counterexample.**  With `volumeNum = "abc"` (present,
non-coercible) and `volume = 5`, the claim's chain falls back to the
secondary field and yields `5.0`, but `get_volume` only falls back when
`volumeNum` is absent or null, so the code yields `0.0`. -/
theorem rankKey_fallback_counterexample :
    get_volume mVolAbc = 0 ∧ claimRankKey mVolAbc = 5 ∧ (0 : Rat) ≠ 5 :=
  ⟨rfl, rfl, by decide⟩

/-- **C6 (amended).**  Ranking-key extraction never raises (both
extractors are total, with every coercion failure resolving to `0.0`),
but the fallback is narrower than claimed: `get_volume`
(`top_election_vol`) consults `volume` only when `volumeNum` is absent or
null — a present non-null, non-coercible `volumeNum` yields `0.0` without
fallback; the `query_elections` coercion consults `volume` only when
`volumeNum` is absent — even a null `volumeNum` yields `0.0` there. -/
theorem rankKey_extraction_amended (m : Record) :
    (∀ v, recGet m "volumeNum" = some v → v ≠ .null →
      get_volume m = (pyFloat? v).getD 0) ∧
    ((recGet m "volumeNum" = none ∨ recGet m "volumeNum" = some .null) →
      (recGet m "volume" = none → get_volume m = 0) ∧
      (recGet m "volume" = some .null → get_volume m = 0) ∧
      (∀ w, recGet m "volume" = some w → w ≠ .null →
        get_volume m = (pyFloat? w).getD 0)) ∧
    (∀ v, recGet m "volumeNum" = some v → qeVolumeNum m = (pyFloat? v).getD 0) ∧
    (recGet m "volumeNum" = none →
      (∀ w, recGet m "volume" = some w → qeVolumeNum m = (pyFloat? w).getD 0) ∧
      (recGet m "volume" = none → qeVolumeNum m = 0)) := by
  refine ⟨?_, ?_, ?_, ?_⟩
  · intro v hv hvn
    rw [get_volume, hv]
    cases v with
    | null => exact absurd rfl hvn
    | bool b => rfl
    | num q => rfl
    | str s => rfl
    | list vs => rfl
    | dict fs => rfl
  · intro hvn
    refine ⟨?_, ?_, ?_⟩
    · intro hw
      rcases hvn with h | h <;> simp [get_volume, h, hw, pyFloat?]
    · intro hw
      rcases hvn with h | h <;> simp [get_volume, h, hw]
    · intro w hw hwn
      rcases hvn with h | h <;> rw [get_volume, h, hw] <;>
        cases w with
        | null => exact absurd rfl hwn
        | bool b => rfl
        | num q => rfl
        | str s => rfl
        | list vs => rfl
        | dict fs => rfl
  · intro v hv
    rw [qeVolumeNum, hv]
  · intro hvn
    exact ⟨fun w hw => by rw [qeVolumeNum, hvn, hw],
           fun hw => by rw [qeVolumeNum, hvn, hw]⟩

/-- **C6 witness.** -/
theorem rankKey_extraction_amended_witness :
    get_volume mVolAbc = (pyFloat? (.str "abc")).getD 0 ∧
    qeVolumeNum [("volume", .num 3)] = (pyFloat? (.num 3)).getD 0 :=
  ⟨(rankKey_extraction_amended mVolAbc).1 (.str "abc") rfl (by simp),
   ((rankKey_extraction_amended [("volume", .num 3)]).2.2.2 rfl).1 (.num 3) rfl⟩

/-- **C5 witness.** -/
theorem pageFetcher_shape_amended_witness :
    topExtract (.list [vRecord]) = .list [vRecord] ∧
    topExtract (.dict [("markets", .list [vRecord])]) = .list [vRecord] ∧
    qeExtract (.dict [("markets", .list [vRecord])]) = .records [vRecord] ∧
    qeExtract (.list [vRecord]) = .missing :=
  ⟨pageFetcher_shape_amended.1 [vRecord],
   pageFetcher_shape_amended.2.1 [("markets", .list [vRecord])] (.list [vRecord]) rfl,
   pageFetcher_shape_amended.2.2.2.2.2.2.2.1 [("markets", .list [vRecord])] [vRecord] rfl,
   pageFetcher_shape_amended.2.2.2.2.2.2.2.2 [vRecord] (by decide)⟩
